import Mathlib

/-!
Verification of the inventory ledger engine of `table_manage.py`.

The embedding models the classes `InventorySummaryManager`, `InboundManager`
and `OutboundManager`.  Quantities and prices (Python floats holding small
decimal values) are embedded as rationals `ℚ`; the remote bitable is embedded
as an in-memory list of rows, a row's position or an explicit numeric
`record_id` standing for the store-assigned record id.  Fallible store calls
(`write_bitable`, `update_bitable`, the inner `update_*` calls) are
parametrised by a success oracle `ok : Nat → Bool` consulted at consecutive
ticks; a failing call is modelled as raising before any mutation, matching a
transport failure or a falsy response in the source.  Pure metadata columns
(courier numbers, addresses, operator ids, order-number strings) that never
feed the numeric logic are not carried.
-/

/-- One row of the `inventory_summary` bitable (a stock layer): one cost
tranche of one product in one warehouse.  Field names follow the Chinese
columns of the source: 商品ID, 商品名称, 仓库名, 入库单价, 累计入库数量,
累计出库数量, 当前库存, 入库总价, 出库总价, 最后更新时间, 最后入库时间,
最后出库时间. -/
structure StockLayer where
  productId : String
  productName : String
  warehouse : String
  unitCost : ℚ
  cumInboundQty : ℚ
  cumOutboundQty : ℚ
  currentQty : ℚ
  totalInboundValue : ℚ
  totalOutboundValue : ℚ
  lastUpdated : Option Nat
  lastInbound : Option Nat
  lastOutbound : Option Nat
deriving Repr, DecidableEq

/-- The data dict passed to `InventorySummaryManager.update_inbound` and one
line of `InboundManager.add_inbound`'s `data_list`: 商品ID, 商品名称, 仓库名,
入库数量, 入库单价. -/
structure InboundData where
  productId : String
  productName : String
  warehouse : String
  quantity : ℚ
  unitCost : ℚ
deriving Repr, DecidableEq

/-- The data dict passed to `InventorySummaryManager.update_outbound` and one
line of `OutboundManager.add_outbound`'s `data_list`: 商品ID, 商品名称, 仓库名,
出库数量, 出库单价. -/
structure OutboundData where
  productId : String
  productName : String
  warehouse : String
  quantity : ℚ
  salePrice : ℚ
deriving Repr, DecidableEq

/-! ### List helpers mirroring store primitives

`updateAt f l i` is `update_bitable` on the row with record id `i`:
it replaces the `i`-th row by `f` of that row. `withIdx k l` pairs each row
with its record id (position), as `read_bitable` returns
`{record_id, fields}` items. -/

def updateAt (f : α → α) : List α → Nat → List α
  | [], _ => []
  | x :: xs, 0 => f x :: xs
  | x :: xs, n + 1 => x :: updateAt f xs n

def withIdx : Nat → List α → List (Nat × α)
  | _, [] => []
  | k, x :: xs => (k, x) :: withIdx (k + 1) xs

/-- Stable insertion of `x` into a list sorted descending by `key`:
`x` is placed before the first element whose key is not greater,
so equal keys keep their original relative order — matching Python's
stable `list.sort(key=..., reverse=True)`. -/
def insertByDesc (key : α → ℚ) (x : α) : List α → List α
  | [] => [x]
  | y :: ys => if key x < key y then y :: insertByDesc key x ys else x :: y :: ys

/-- Stable sort, descending by `key` (the source sorts matching stock rows by
入库单价 descending; `pandas.sort_values` leaves tie order unspecified, the
stable order is the determinisation used throughout this model). -/
def sortByDesc (key : α → ℚ) : List α → List α
  | [] => []
  | x :: xs => insertByDesc key x (sortByDesc key xs)

/-! ### InventorySummaryManager -/

/-- The matching test of `update_inbound` (lines 532-534): same 商品ID, same
仓库名, and 入库单价 within `0.01` of the event's unit cost. -/
def inMatch (pid wh : String) (cost : ℚ) (l : StockLayer) : Bool :=
  pid == l.productId && wh == l.warehouse && decide (|l.unitCost - cost| < 1/100)

/-- The merged row written by `update_inbound` when a matching layer exists:
累计入库数量, 当前库存, 入库总价 each grow; 累计出库数量 and 出库总价 are
untouched. -/
def mergeInbound (now : Nat) (d : InboundData) (l : StockLayer) : StockLayer :=
  { l with cumInboundQty := l.cumInboundQty + d.quantity
         , currentQty := l.currentQty + d.quantity
         , totalInboundValue := l.totalInboundValue + d.quantity * d.unitCost
         , lastUpdated := some now
         , lastInbound := some now }

/-- The fresh row created by `update_inbound` when no layer matches. -/
def freshLayer (now : Nat) (d : InboundData) : StockLayer :=
  { productId := d.productId
  , productName := d.productName
  , warehouse := d.warehouse
  , unitCost := d.unitCost
  , cumInboundQty := d.quantity
  , cumOutboundQty := 0
  , currentQty := d.quantity
  , totalInboundValue := d.quantity * d.unitCost
  , totalOutboundValue := 0
  , lastUpdated := some now
  , lastInbound := some now
  , lastOutbound := none }

/-- `InventorySummaryManager.update_inbound`: the first row matching
(商品ID, 仓库名, 入库单价 ± 0.01) is merged into; otherwise a new row is
appended (`write_bitable` appends). -/
def update_inbound (now : Nat) (d : InboundData) : List StockLayer → List StockLayer
  | [] => [freshLayer now d]
  | l :: ls =>
      if inMatch d.productId d.warehouse d.unitCost l then mergeInbound now d l :: ls
      else l :: update_inbound now d ls

/-- The row filter of `update_outbound` (lines 625-627): same 商品ID, same
仓库名, 当前库存 > 0. -/
def outMatch (pid wh : String) (l : StockLayer) : Bool :=
  l.productId == pid && l.warehouse == wh && decide (0 < l.currentQty)

/-- The updated row written by one consumption step of `update_outbound`.
The new values are computed from the `fields` snapshot taken at read time
(`record["fields"]`), which is `snap`; only 累计出库数量, 当前库存, 出库总价
and the timestamps change. -/
def consumeUpdate (now : Nat) (salePrice take : ℚ) (snap : StockLayer)
    (l : StockLayer) : StockLayer :=
  { l with cumOutboundQty := snap.cumOutboundQty + take
         , currentQty := snap.currentQty - take
         , totalOutboundValue := snap.totalOutboundValue + take * salePrice
         , lastUpdated := some now
         , lastOutbound := some now }

/-- The consumption loop of `update_outbound` (lines 647-676): walk the sorted
matching records, each carried as (record id, fields snapshot); stop once the
remaining quantity is ≤ 0; otherwise take `min remaining snapshot.当前库存`
from the record and commit the update immediately.  Returns the store rows and
the remaining quantity. -/
def consumeRecs (now : Nat) (salePrice : ℚ) :
    List (Nat × StockLayer) → ℚ → List StockLayer → List StockLayer × ℚ
  | [], rem, layers => (layers, rem)
  | (i, snap) :: rest, rem, layers =>
      if rem ≤ 0 then (layers, rem)
      else
        let take := min rem snap.currentQty
        consumeRecs now salePrice rest (rem - take)
          (updateAt (consumeUpdate now salePrice take snap) layers i)

/-- `InventorySummaryManager.update_outbound`: read all rows; fail if the
table is empty or no row matches (商品ID, 仓库名, 当前库存 > 0); sort the
matching rows by 入库单价 descending; consume them in order; report `false`
when remaining > 0 at the end (库存不足) — note the consumption updates
already committed are kept in that case, exactly as in the source, where the
exception is raised only after the per-record `update_bitable` calls. -/
def update_outbound (now : Nat) (d : OutboundData) (layers : List StockLayer) :
    List StockLayer × Bool :=
  if layers.isEmpty then (layers, false)
  else
    let ms := (withIdx 0 layers).filter fun p => outMatch d.productId d.warehouse p.2
    if ms.isEmpty then (layers, false)
    else
      let sorted := sortByDesc (fun p => p.2.unitCost) ms
      let r := consumeRecs now d.salePrice sorted d.quantity layers
      (r.1, decide (r.2 ≤ 0))

/-! ### InboundManager.add_inbound -/

/-- One row of the inbound ledger bitable written by `add_inbound`
(numeric and identifying columns; 入库总价 = 入库数量 × 入库单价). -/
structure InboundRecord where
  productId : String
  productName : String
  warehouse : String
  quantity : ℚ
  price : ℚ
  total : ℚ
deriving Repr, DecidableEq

/-- The two tables touched by inbound processing: the inbound ledger and the
stock summary rows. -/
structure InStore where
  inLedger : List InboundRecord
  layers : List StockLayer
deriving Repr, DecidableEq

/-- The loop of `InboundManager.add_inbound` (lines 188-256).  State of the
fold: store, success_count, operation tick.  A line with 入库数量 ≤ 0 or
入库单价 ≤ 0 is skipped (`continue`).  Otherwise the ledger write happens at
the current tick and the `update_inbound` merge at the next one; if either
fails the call returns immediately (final `Bool` component `false`), keeping
everything already committed — including the ledger row whose merge failed. -/
def add_inbound_go (ok : Nat → Bool) (now : Nat) :
    List InboundData → InStore → Nat → Nat → InStore × Nat × Nat × Bool
  | [], st, cnt, tick => (st, cnt, tick, true)
  | d :: ds, st, cnt, tick =>
      if d.quantity ≤ 0 ∨ d.unitCost ≤ 0 then
        add_inbound_go ok now ds st cnt tick
      else if ok tick then
        let st1 : InStore :=
          { st with inLedger := st.inLedger ++
              [⟨d.productId, d.productName, d.warehouse, d.quantity, d.unitCost,
                d.quantity * d.unitCost⟩] }
        if ok (tick + 1) then
          add_inbound_go ok now ds
            { st1 with layers := update_inbound now d st1.layers } (cnt + 1) (tick + 2)
        else (st1, cnt, tick + 2, false)
      else (st, cnt, tick + 1, false)

/-- `InboundManager.add_inbound`: run the per-line loop; the call reports
success only when the loop completed and `success_count == len(data_list)`. -/
def add_inbound (ok : Nat → Bool) (now : Nat) (ds : List InboundData)
    (st : InStore) : InStore × Bool :=
  let r := add_inbound_go ok now ds st 0 0
  (r.1, r.2.2.2 && (r.2.1 == ds.length))

/-! ### OutboundManager.add_outbound -/

/-- One row of the outbound ledger bitable: one row per consumed layer, with
出库数量 = the quantity taken from that layer, 出库单价 the sale price,
入库单价 the consumed layer's unit cost (cost basis), and
出库总价 = 出库数量 × 出库单价. -/
structure OutboundRecord where
  productId : String
  productName : String
  warehouse : String
  quantity : ℚ
  salePrice : ℚ
  costBasis : ℚ
  total : ℚ
deriving Repr, DecidableEq

/-- The store as seen by outbound processing: the stock summary rows, the
outbound ledger rows each paired with their store-assigned `record_id`, and
the next fresh record id. -/
structure OutStore where
  layers : List StockLayer
  ledger : List (Nat × OutboundRecord)
  nextId : Nat
deriving Repr, DecidableEq

/-- The row filter of `get_stock_summary` (lines 702-703): a row is kept when
each given (truthy, i.e. nonempty) filter matches; an empty 商品ID or 仓库名
filter is a no-op, as in the Python truthiness test. -/
def stockFilter (pid wh : String) (l : StockLayer) : Bool :=
  (pid == "" || l.productId == pid) && (wh == "" || l.warehouse == wh)

/-- `InventorySummaryManager.get_stock_summary`: filtered scan of the layer
rows. -/
def get_stock_summary (layers : List StockLayer) (pid wh : String) :
    List StockLayer :=
  layers.filter (stockFilter pid wh)

/-- The validation-phase check of `add_outbound` for one line
(lines 300-331): the stock scan must be non-empty, the summed 当前库存 must
cover 出库数量, and 出库数量 must be positive.  No writes happen here. -/
def validLine (layers : List StockLayer) (d : OutboundData) : Bool :=
  let stock := get_stock_summary layers d.productId d.warehouse
  !stock.isEmpty && decide (d.quantity ≤ (stock.map StockLayer.currentQty).sum)
    && decide (0 < d.quantity)

/-- `OutboundManager._rollback_records`: delete each just-created ledger row
by its `record_id`, consulting the deletion oracle `delOk` at consecutive
ticks; a failed deletion is caught and the loop continues with the remaining
records (best effort), never propagating an error. -/
def rollback_records (delOk : Nat → Bool) :
    Nat → List Nat → List (Nat × OutboundRecord) → List (Nat × OutboundRecord)
  | _, [], ledger => ledger
  | t, rid :: rest, ledger =>
      rollback_records delOk (t + 1) rest
        (if delOk t then ledger.filter fun e => !(e.1 == rid) else ledger)

/-- The inner consumption loop of `add_outbound`'s commit phase
(lines 348-412) for one line.  `pending` is the per-line snapshot of stock
rows (values only, as returned by `get_stock_summary`), already sorted by
入库单价 descending; `rem` the remaining requested quantity; `created` the
record ids of `successful_records`.  Each step writes one outbound ledger row
(tick consulted; on failure: stop, final component `none`), then performs the
layer update through `update_outbound` with 出库数量 = the step's take (next
tick; on oracle failure: stop — note the just-written ledger row is *not*
added to `created`, mirroring that `successful_records.append` only happens
after a successful `update_outbound`; if `update_outbound` itself reports
failure, its partial mutations are kept and the step fails the same way). -/
def commitSteps (ok : Nat → Bool) (now : Nat) (line : OutboundData) :
    List StockLayer → ℚ → OutStore → Nat → List Nat →
    OutStore × Nat × List Nat × Option ℚ
  | [], rem, st, tick, created => (st, tick, created, some rem)
  | snap :: snaps, rem, st, tick, created =>
      if rem ≤ 0 then (st, tick, created, some rem)
      else if snap.currentQty ≤ 0 then
        commitSteps ok now line snaps rem st tick created
      else
        let take := min rem snap.currentQty
        if ok tick then
          let rid := st.nextId
          let st1 : OutStore :=
            { st with
                ledger := st.ledger ++
                  [(rid, ⟨line.productId, line.productName, line.warehouse,
                          take, line.salePrice, snap.unitCost,
                          take * line.salePrice⟩)]
              , nextId := st.nextId + 1 }
          if ok (tick + 1) then
            let u := update_outbound now
              ⟨line.productId, line.productName, line.warehouse, take,
               line.salePrice⟩ st1.layers
            if u.2 then
              commitSteps ok now line snaps (rem - take)
                { st1 with layers := u.1 } (tick + 2) (created ++ [rid])
            else ({ st1 with layers := u.1 }, tick + 2, created, none)
          else (st1, tick + 2, created, none)
        else (st, tick + 1, created, none)

/-- The per-line commit loop of `add_outbound` (lines 335-419): take a fresh
sorted stock snapshot for the line, run the consumption steps, and fail when
they fail or when the line could not be fully allocated (remaining > 0). -/
def commitLines (ok : Nat → Bool) (now : Nat) :
    List OutboundData → OutStore → Nat → List Nat →
    OutStore × Nat × List Nat × Bool
  | [], st, tick, created => (st, tick, created, true)
  | line :: rest, st, tick, created =>
      let snap := sortByDesc StockLayer.unitCost
        (get_stock_summary st.layers line.productId line.warehouse)
      match commitSteps ok now line snap line.quantity st tick created with
      | (st', tick', created', some rem) =>
          if 0 < rem then (st', tick', created', false)
          else commitLines ok now rest st' tick' created'
      | (st', tick', created', none) => (st', tick', created', false)

/-- `OutboundManager.add_outbound`: validation phase over every line against
the current stock (no writes); on success the commit phase runs; on any
commit-phase failure `_rollback_records` deletes the ledger rows recorded in
`successful_records` and the call reports `false` — the layer rows are left
exactly as the commit phase put them. -/
def add_outbound (ok delOk : Nat → Bool) (now : Nat)
    (lines : List OutboundData) (st : OutStore) : OutStore × Bool :=
  if lines.all (validLine st.layers) then
    match commitLines ok now lines st 0 [] with
    | (st', _, _, true) => (st', true)
    | (st', _, created, false) =>
        ({ st' with ledger := rollback_records delOk 0 created st'.ledger }, false)
  else (st, false)

/-! ### The cost-layer allocator and sequences of committed operations -/

/-- The allocation walk of `add_outbound`'s commit loop, recorded as the
(入库单价, 出库数量) pairs of the ledger rows it writes: stop when the
remaining request is ≤ 0, skip rows with 当前库存 ≤ 0, otherwise take
`min remaining 当前库存` from the row. -/
def allocWalk : List StockLayer → ℚ → List (ℚ × ℚ)
  | [], _ => []
  | l :: ls, rem =>
      if rem ≤ 0 then []
      else if l.currentQty ≤ 0 then allocWalk ls rem
      else (l.unitCost, min rem l.currentQty) :: allocWalk ls (rem - min rem l.currentQty)

/-- The outbound allocator: scan the layers of the (product, warehouse) pair,
sort them by 入库单价 descending, and walk them consuming
`min remaining 当前库存` at each step. -/
def allocate (layers : List StockLayer) (pid wh : String) (qty : ℚ) :
    List (ℚ × ℚ) :=
  allocWalk (sortByDesc StockLayer.unitCost (get_stock_summary layers pid wh)) qty

/-- A committed ledger operation on the stock summary: an inbound merge/create
or an outbound consumption (as performed by `update_inbound` /
`update_outbound`). -/
inductive LedgerOp
  | inbound (d : InboundData)
  | outbound (d : OutboundData)
deriving Repr, DecidableEq

/-- Validity of a committed operation: `add_inbound` only commits lines with
入库数量 > 0 and 入库单价 > 0; outbound operations carry no extra numeric
precondition for the invariants below. -/
def opValid : LedgerOp → Prop
  | .inbound d => 0 < d.quantity ∧ 0 < d.unitCost
  | .outbound _ => True

def applyOp (now : Nat) (layers : List StockLayer) : LedgerOp → List StockLayer
  | .inbound d => update_inbound now d layers
  | .outbound d => (update_outbound now d layers).1

def applyOps (now : Nat) : List LedgerOp → List StockLayer → List StockLayer
  | [], layers => layers
  | op :: ops, layers => applyOps now ops (applyOp now layers op)

/-- The conservation invariant of a stock-layer row:
当前库存 = 累计入库数量 - 累计出库数量. -/
def conserves (l : StockLayer) : Prop :=
  l.currentQty = l.cumInboundQty - l.cumOutboundQty

/-! ### Basic lemmas about the list helpers -/

theorem length_updateAt (f : α → α) :
    ∀ (l : List α) (i : Nat), (updateAt f l i).length = l.length
  | [], _ => rfl
  | _ :: _, 0 => rfl
  | _ :: xs, n + 1 => congrArg Nat.succ (length_updateAt f xs n)

theorem mem_updateAt {f : α → α} :
    ∀ {l : List α} {i : Nat} {a : α}, a ∈ updateAt f l i →
      a ∈ l ∨ ∃ x, l.get? i = some x ∧ a = f x := by
  intro l
  induction l with
  | nil => intro i a h; exact absurd h (by simp [updateAt])
  | cons x xs ih =>
    intro i a h
    cases i with
    | zero =>
      rcases List.mem_cons.mp h with h | h
      · exact Or.inr ⟨x, rfl, h⟩
      · exact Or.inl (List.mem_cons_of_mem _ h)
    | succ n =>
      rcases List.mem_cons.mp h with h | h
      · exact Or.inl (h ▸ List.mem_cons_self _ _)
      · rcases ih h with h | ⟨y, hy, ha⟩
        · exact Or.inl (List.mem_cons_of_mem _ h)
        · exact Or.inr ⟨y, hy, ha⟩

theorem get?_updateAt_ne (f : α → α) :
    ∀ (l : List α) (i j : Nat), i ≠ j → (updateAt f l i).get? j = l.get? j := by
  intro l
  induction l with
  | nil => intro i j _; simp [updateAt]
  | cons x xs ih =>
    intro i j hij
    cases i with
    | zero =>
      cases j with
      | zero => exact absurd rfl hij
      | succ m => simp [updateAt]
    | succ n =>
      cases j with
      | zero => simp [updateAt]
      | succ m =>
        simpa [updateAt] using ih n m (fun h => hij (by omega))

theorem withIdx_mem :
    ∀ {k : Nat} {l : List α} {p : Nat × α}, p ∈ withIdx k l →
      k ≤ p.1 ∧ l.get? (p.1 - k) = some p.2 := by
  intro k l
  induction l generalizing k with
  | nil => intro p h; exact absurd h (by simp [withIdx])
  | cons x xs ih =>
    intro p h
    rcases List.mem_cons.mp h with h | h
    · subst h; exact ⟨le_refl _, by simp⟩
    · obtain ⟨hk, hget⟩ := ih h
      refine ⟨le_trans (Nat.le_succ k) hk, ?_⟩
      have : p.1 - k = (p.1 - (k + 1)) + 1 := by omega
      rw [this]
      simpa using hget

theorem withIdx_pairwise :
    ∀ (k : Nat) (l : List α), (withIdx k l).Pairwise (fun a b => a.1 < b.1) := by
  intro k l
  induction l generalizing k with
  | nil => exact List.Pairwise.nil
  | cons x xs ih =>
    refine List.pairwise_cons.mpr ⟨?_, ih (k + 1)⟩
    intro p hp
    exact lt_of_lt_of_le (Nat.lt_succ_self k) (withIdx_mem hp).1

theorem insertByDesc_perm (key : α → ℚ) (x : α) :
    ∀ (l : List α), List.Perm (insertByDesc key x l) (x :: l) := by
  intro l
  induction l with
  | nil => simp [insertByDesc]
  | cons y ys ih =>
    by_cases h : key x < key y
    · simp only [insertByDesc, if_pos h]
      exact ((ih.cons y).trans (List.Perm.swap x y ys))
    · simp [insertByDesc, if_neg h]

theorem sortByDesc_perm (key : α → ℚ) :
    ∀ (l : List α), List.Perm (sortByDesc key l) l := by
  intro l
  induction l with
  | nil => exact List.Perm.refl _
  | cons x xs ih =>
    exact (insertByDesc_perm key x (sortByDesc key xs)).trans (ih.cons x)

theorem insertByDesc_pairwise (key : α → ℚ) (x : α) :
    ∀ (l : List α), l.Pairwise (fun a b => key b ≤ key a) →
      (insertByDesc key x l).Pairwise (fun a b => key b ≤ key a) := by
  intro l
  induction l with
  | nil => intro _; simp [insertByDesc]
  | cons y ys ih =>
    intro hp
    obtain ⟨hy, hys⟩ := List.pairwise_cons.mp hp
    by_cases h : key x < key y
    · simp only [insertByDesc, if_pos h]
      refine List.pairwise_cons.mpr ⟨?_, ih hys⟩
      intro b hb
      rcases List.mem_cons.mp ((insertByDesc_perm key x ys).mem_iff.mp hb) with hb | hb
      · exact hb ▸ le_of_lt h
      · exact hy b hb
    · simp only [insertByDesc, if_neg h]
      refine List.pairwise_cons.mpr ⟨?_, hp⟩
      intro b hb
      rcases List.mem_cons.mp hb with hb | hb
      · exact hb ▸ le_of_not_lt h
      · exact le_trans (hy b hb) (le_of_not_lt h)

theorem sortByDesc_pairwise (key : α → ℚ) :
    ∀ (l : List α), (sortByDesc key l).Pairwise (fun a b => key b ≤ key a) := by
  intro l
  induction l with
  | nil => exact List.Pairwise.nil
  | cons x xs ih => exact insertByDesc_pairwise key x _ ih

/-! ### Invariant lemmas for the consumption loop -/

theorem consumeRecs_nonneg (now : Nat) (sp : ℚ) :
    ∀ (pending : List (Nat × StockLayer)) (rem : ℚ) (layers : List StockLayer),
      (∀ l ∈ layers, 0 ≤ l.currentQty) →
      ∀ l ∈ (consumeRecs now sp pending rem layers).1, 0 ≤ l.currentQty := by
  intro pending
  induction pending with
  | nil => intro rem layers h; simpa [consumeRecs] using h
  | cons p rest ih =>
    obtain ⟨i, snap⟩ := p
    intro rem layers h
    by_cases hrem : rem ≤ 0
    · intro l hl
      exact h l (by simpa [consumeRecs, hrem] using hl)
    · simp only [consumeRecs, if_neg hrem]
      apply ih
      intro l hl
      rcases mem_updateAt hl with hl | ⟨x, _, hx⟩
      · exact h l hl
      · subst hx
        simp only [consumeUpdate]
        exact sub_nonneg.mpr (min_le_right rem snap.currentQty)

theorem consumeRecs_conserves (now : Nat) (sp : ℚ) :
    ∀ (pending : List (Nat × StockLayer)) (rem : ℚ) (layers : List StockLayer),
      (∀ p ∈ pending, layers.get? p.1 = some p.2) →
      pending.Pairwise (fun a b => a.1 ≠ b.1) →
      (∀ l ∈ layers, conserves l) →
      ∀ l ∈ (consumeRecs now sp pending rem layers).1, conserves l := by
  intro pending
  induction pending with
  | nil => intro rem layers _ _ h; simpa [consumeRecs] using h
  | cons p rest ih =>
    obtain ⟨i, snap⟩ := p
    intro rem layers hsnap hpw h
    obtain ⟨hhead, htail⟩ := List.pairwise_cons.mp hpw
    have hi : layers.get? i = some snap := hsnap (i, snap) (List.mem_cons_self _ _)
    by_cases hrem : rem ≤ 0
    · simpa [consumeRecs, hrem] using h
    · simp only [consumeRecs, if_neg hrem]
      apply ih
      · intro q hq
        rw [get?_updateAt_ne _ layers i q.1 (hhead q hq)]
        exact hsnap q (List.mem_cons_of_mem _ hq)
      · exact htail
      · intro l hl
        rcases mem_updateAt hl with hl | ⟨x, hx, hlx⟩
        · exact h l hl
        · have hxs : x = snap := Option.some.inj (hx.symm.trans hi)
          subst hlx
          rw [hxs]
          have hc : conserves snap := h snap (List.get?_mem hi)
          simp only [conserves, consumeUpdate] at hc ⊢
          rw [hc]; ring

/-! ### Preservation lemmas for the two summary updates -/

theorem update_outbound_sorted_mem {d : OutboundData} {layers : List StockLayer}
    {p : Nat × StockLayer}
    (hp : p ∈ sortByDesc (fun q => q.2.unitCost)
        ((withIdx 0 layers).filter fun q => outMatch d.productId d.warehouse q.2)) :
    layers.get? p.1 = some p.2 := by
  have h1 : p ∈ (withIdx 0 layers).filter
      (fun q => outMatch d.productId d.warehouse q.2) :=
    (sortByDesc_perm _ _).mem_iff.mp hp
  have h2 : p ∈ withIdx 0 layers := (List.mem_filter.mp h1).1
  have h3 := (withIdx_mem h2).2
  simpa using h3

theorem update_outbound_sorted_pairwise (d : OutboundData) (layers : List StockLayer) :
    (sortByDesc (fun q => q.2.unitCost)
        ((withIdx 0 layers).filter fun q => outMatch d.productId d.warehouse q.2)).Pairwise
      (fun a b => a.1 ≠ b.1) := by
  have h0 : (withIdx 0 layers).Pairwise (fun a b : Nat × StockLayer => a.1 ≠ b.1) :=
    (withIdx_pairwise 0 layers).imp (fun h => Nat.ne_of_lt h)
  have h1 : ((withIdx 0 layers).filter
      (fun q => outMatch d.productId d.warehouse q.2)).Pairwise
      (fun a b : Nat × StockLayer => a.1 ≠ b.1) :=
    List.Pairwise.sublist (List.filter_sublist _) h0
  exact ((sortByDesc_perm (fun q => q.2.unitCost) _).pairwise_iff
    (fun h => Ne.symm h)).mpr h1

theorem update_outbound_nonneg (now : Nat) (d : OutboundData) (layers : List StockLayer)
    (h : ∀ l ∈ layers, 0 ≤ l.currentQty) :
    ∀ l ∈ (update_outbound now d layers).1, 0 ≤ l.currentQty := by
  simp only [update_outbound]
  split
  · exact h
  · split
    · exact h
    · exact consumeRecs_nonneg now d.salePrice _ d.quantity layers h

theorem update_outbound_conserves (now : Nat) (d : OutboundData) (layers : List StockLayer)
    (h : ∀ l ∈ layers, conserves l) :
    ∀ l ∈ (update_outbound now d layers).1, conserves l := by
  simp only [update_outbound]
  split
  · exact h
  · split
    · exact h
    · exact consumeRecs_conserves now d.salePrice _ d.quantity layers
        (fun p hp => update_outbound_sorted_mem hp)
        (update_outbound_sorted_pairwise d layers) h

theorem update_inbound_nonneg (now : Nat) (d : InboundData) (hq : 0 ≤ d.quantity) :
    ∀ (layers : List StockLayer), (∀ l ∈ layers, 0 ≤ l.currentQty) →
      ∀ l ∈ update_inbound now d layers, 0 ≤ l.currentQty := by
  intro layers
  induction layers with
  | nil =>
    intro _ l hl
    have hl : l = freshLayer now d := by simpa [update_inbound] using hl
    subst hl
    simpa [freshLayer] using hq
  | cons x xs ih =>
    intro h l hl
    by_cases hm : inMatch d.productId d.warehouse d.unitCost x
    · rw [update_inbound, if_pos hm] at hl
      rcases List.mem_cons.mp hl with hl | hl
      · subst hl
        have hx := h x (List.mem_cons_self _ _)
        simp only [mergeInbound]
        exact add_nonneg hx hq
      · exact h l (List.mem_cons_of_mem _ hl)
    · rw [update_inbound, if_neg hm] at hl
      rcases List.mem_cons.mp hl with hl | hl
      · exact hl ▸ h x (List.mem_cons_self _ _)
      · exact ih (fun a ha => h a (List.mem_cons_of_mem _ ha)) l hl

theorem update_inbound_conserves (now : Nat) (d : InboundData) :
    ∀ (layers : List StockLayer), (∀ l ∈ layers, conserves l) →
      ∀ l ∈ update_inbound now d layers, conserves l := by
  intro layers
  induction layers with
  | nil =>
    intro _ l hl
    have hl : l = freshLayer now d := by simpa [update_inbound] using hl
    subst hl
    simp [conserves, freshLayer]
  | cons x xs ih =>
    intro h l hl
    by_cases hm : inMatch d.productId d.warehouse d.unitCost x
    · rw [update_inbound, if_pos hm] at hl
      rcases List.mem_cons.mp hl with hl | hl
      · subst hl
        have hx := h x (List.mem_cons_self _ _)
        simp only [conserves, mergeInbound] at hx ⊢
        rw [hx]; ring
      · exact h l (List.mem_cons_of_mem _ hl)
    · rw [update_inbound, if_neg hm] at hl
      rcases List.mem_cons.mp hl with hl | hl
      · exact hl ▸ h x (List.mem_cons_self _ _)
      · exact ih (fun a ha => h a (List.mem_cons_of_mem _ ha)) l hl

/-! ### Lemmas about the allocator walk -/

theorem allocWalk_mem :
    ∀ {ls : List StockLayer} {rem : ℚ} {p : ℚ × ℚ},
      p ∈ allocWalk ls rem → ∃ l ∈ ls, p.1 = l.unitCost := by
  intro ls
  induction ls with
  | nil => intro rem p h; exact absurd h (by simp [allocWalk])
  | cons l ls ih =>
    intro rem p h
    by_cases h0 : rem ≤ 0
    · exact absurd h (by simp [allocWalk, h0])
    · by_cases h1 : l.currentQty ≤ 0
      · rw [allocWalk, if_neg h0, if_pos h1] at h
        obtain ⟨a, ha, hp⟩ := ih h
        exact ⟨a, List.mem_cons_of_mem _ ha, hp⟩
      · rw [allocWalk, if_neg h0, if_neg h1] at h
        rcases List.mem_cons.mp h with h | h
        · exact ⟨l, List.mem_cons_self _ _, by rw [h]⟩
        · obtain ⟨a, ha, hp⟩ := ih h
          exact ⟨a, List.mem_cons_of_mem _ ha, hp⟩

theorem allocWalk_pairwise :
    ∀ (ls : List StockLayer) (rem : ℚ),
      ls.Pairwise (fun a b => b.unitCost ≤ a.unitCost) →
      (allocWalk ls rem).Pairwise (fun a b => b.1 ≤ a.1) := by
  intro ls
  induction ls with
  | nil => intro rem _; exact List.Pairwise.nil
  | cons l ls ih =>
    intro rem hp
    obtain ⟨hhead, htail⟩ := List.pairwise_cons.mp hp
    by_cases h0 : rem ≤ 0
    · simp [allocWalk, h0]
    · by_cases h1 : l.currentQty ≤ 0
      · rw [allocWalk, if_neg h0, if_pos h1]
        exact ih rem htail
      · rw [allocWalk, if_neg h0, if_neg h1]
        refine List.pairwise_cons.mpr ⟨?_, ih _ htail⟩
        intro p hp'
        obtain ⟨a, ha, hpa⟩ := allocWalk_mem hp'
        exact hpa ▸ hhead a ha

/-! ### Test fixtures -/

/-- Test fixture: a cost-10 layer holding 100 units of product P1 in
warehouse W1. -/
def layerA : StockLayer :=
  ⟨"P1", "甲", "W1", 10, 100, 0, 100, 1000, 0, none, none, none⟩

/-- Test fixture: a cost-12 layer holding 50 units of the same product and
warehouse. -/
def layerB : StockLayer :=
  ⟨"P1", "甲", "W1", 12, 50, 0, 50, 600, 0, none, none, none⟩

instance (l : StockLayer) : Decidable (conserves l) :=
  inferInstanceAs (Decidable (l.currentQty = l.cumInboundQty - l.cumOutboundQty))

instance (op : LedgerOp) : Decidable (opValid op) := by
  cases op with
  | inbound d => exact inferInstanceAs (Decidable (0 < d.quantity ∧ 0 < d.unitCost))
  | outbound d => exact inferInstanceAs (Decidable True)

/-! ### The claims -/

/-- C1: after every committed inbound (merge or create) and every committed
outbound consumption step, each stock-layer row satisfies 当前库存 =
累计入库数量 - 累计出库数量 provided every row satisfied it beforehand; and a
newly created layer satisfies the equation with 累计出库数量 = 0 and 当前库存
equal to the inbound quantity. -/
theorem c1_conservation :
    (∀ (now : Nat) (ops : List LedgerOp) (layers : List StockLayer),
        (∀ l ∈ layers, conserves l) → ∀ l ∈ applyOps now ops layers, conserves l)
  ∧ (∀ (now : Nat) (d : InboundData),
        conserves (freshLayer now d) ∧ (freshLayer now d).cumOutboundQty = 0 ∧
          (freshLayer now d).currentQty = d.quantity) := by
  constructor
  · intro now ops
    induction ops with
    | nil => intro layers h; simpa [applyOps] using h
    | cons op ops ih =>
      intro layers h
      rw [applyOps]
      apply ih
      cases op with
      | inbound d => exact update_inbound_conserves now d layers h
      | outbound d => exact update_outbound_conserves now d layers h
  · intro now d
    refine ⟨?_, rfl, rfl⟩
    simp [conserves, freshLayer]

/-- Witness for C1 at a concrete two-layer store, one inbound then one
outbound operation. -/
theorem c1_conservation_witness :
    (∀ l ∈ [layerA, layerB], conserves l) ∧
    ∀ l ∈ applyOps 0
        [LedgerOp.inbound ⟨"P1", "甲", "W1", 30, 10⟩,
         LedgerOp.outbound ⟨"P1", "甲", "W1", 60, 20⟩] [layerA, layerB],
      conserves l :=
  ⟨by with_unfolding_all decide,
   c1_conservation.1 0 _ [layerA, layerB] (by with_unfolding_all decide)⟩

/-- C2: starting from layers with non-negative 当前库存, every committed
inbound (入库数量 > 0, as `add_inbound` enforces) and outbound operation
keeps every layer's 当前库存 ≥ 0; and each outbound consumption step takes
exactly `min remaining 当前库存` from the selected record. -/
theorem c2_nonnegativity :
    (∀ (now : Nat) (ops : List LedgerOp) (layers : List StockLayer),
        (∀ op ∈ ops, opValid op) → (∀ l ∈ layers, 0 ≤ l.currentQty) →
        ∀ l ∈ applyOps now ops layers, 0 ≤ l.currentQty)
  ∧ (∀ (now : Nat) (sp rem : ℚ) (i : Nat) (snap : StockLayer)
        (rest : List (Nat × StockLayer)) (layers : List StockLayer),
        0 < rem →
        consumeRecs now sp ((i, snap) :: rest) rem layers =
          consumeRecs now sp rest (rem - min rem snap.currentQty)
            (updateAt (consumeUpdate now sp (min rem snap.currentQty) snap) layers i)) := by
  constructor
  · intro now ops
    induction ops with
    | nil => intro layers _ h; simpa [applyOps] using h
    | cons op ops ih =>
      intro layers hops h
      rw [applyOps]
      apply ih
      · exact fun o ho => hops o (List.mem_cons_of_mem _ ho)
      · cases op with
        | inbound d =>
          exact update_inbound_nonneg now d
            (le_of_lt (hops _ (List.mem_cons_self _ _)).1) layers h
        | outbound d => exact update_outbound_nonneg now d layers h
  · intro now sp rem i snap rest layers hrem
    rw [consumeRecs, if_neg (not_le.mpr hrem)]

/-- Witness for C2 at the same concrete scenario, plus one concrete
consumption step. -/
theorem c2_nonnegativity_witness :
    (∀ l ∈ applyOps 0
        [LedgerOp.inbound ⟨"P1", "甲", "W1", 30, 10⟩,
         LedgerOp.outbound ⟨"P1", "甲", "W1", 60, 20⟩] [layerA, layerB],
      0 ≤ l.currentQty) ∧
    consumeRecs 0 20 [(0, layerA)] 30 [layerA] =
      consumeRecs 0 20 [] (30 - min 30 layerA.currentQty)
        (updateAt (consumeUpdate 0 20 (min 30 layerA.currentQty) layerA) [layerA] 0) :=
  ⟨c2_nonnegativity.1 0 _ [layerA, layerB] (by with_unfolding_all decide)
      (by with_unfolding_all decide),
   c2_nonnegativity.2 0 20 30 0 layerA [] [layerA] (by norm_num)⟩

/-- C3 (amended per the counterexample): the outbound allocator consumes the
(product, warehouse) layers in descending 入库单价 order, taking
`min remaining 当前库存` from each; with layers of costs [10, 12] and
quantities [100, 50], a request for 80 allocates 50 from the 12-cost layer
then 30 from the 10-cost layer, and a request for 120 allocates 50 from the
12-cost layer then 70 from the 10-cost layer. -/
theorem c3_allocation_determinism :
    (∀ (layers : List StockLayer) (pid wh : String) (qty : ℚ),
        (allocate layers pid wh qty).Pairwise (fun a b => b.1 ≤ a.1))
  ∧ allocate [layerA, layerB] "P1" "W1" 80 = [(12, 50), (10, 30)]
  ∧ allocate [layerA, layerB] "P1" "W1" 120 = [(12, 50), (10, 70)] := by
  refine ⟨?_, by with_unfolding_all decide, by with_unfolding_all decide⟩
  intro layers pid wh qty
  exact allocWalk_pairwise _ _ (sortByDesc_pairwise _ _)

/-- C3 counterexample to the claim as stated: with layers of costs [10, 12]
and quantities [100, 50], the request for 80 is *not* allocated entirely from
the 12-cost layer (that layer only holds 50); the allocation is
[(12, 50), (10, 30)]. -/
theorem c3_allocation_counterexample :
    allocate [layerA, layerB] "P1" "W1" 80 = [(12, 50), (10, 30)] ∧
    ¬ ∀ p ∈ allocate [layerA, layerB] "P1" "W1" 80, p.1 = 12 := by
  with_unfolding_all decide

/-- Test fixture: an outbound store holding the two P1 layers, an empty
outbound ledger, and fresh record ids starting at 0. -/
def store0 : OutStore := ⟨[layerA, layerB], [], 0⟩

/-- C4: if any line of an outbound batch has no stock rows for its
(商品ID, 仓库名) pair or requests more than their summed 当前库存 at
validation time, `add_outbound` returns `false` before performing any write:
no outbound ledger row is created and no layer is updated for any line. -/
theorem c4_all_or_nothing (ok delOk : Nat → Bool) (now : Nat)
    (lines : List OutboundData) (st : OutStore) (d : OutboundData)
    (hd : d ∈ lines)
    (hbad : get_stock_summary st.layers d.productId d.warehouse = [] ∨
      ((get_stock_summary st.layers d.productId d.warehouse).map
        StockLayer.currentQty).sum < d.quantity) :
    add_outbound ok delOk now lines st = (st, false) := by
  have hv : validLine st.layers d = false := by
    rcases hbad with hb | hb
    · simp [validLine, hb]
    · have hq : ¬ (d.quantity ≤ ((get_stock_summary st.layers d.productId
          d.warehouse).map StockLayer.currentQty).sum) := not_le.mpr hb
      simp [validLine, hq]
  have hall : lines.all (validLine st.layers) = false := by
    cases h : lines.all (validLine st.layers) with
    | true => exact absurd (List.all_eq_true.mp h d hd) (by simp [hv])
    | false => rfl
  simp [add_outbound, hall]

/-- Witness for C4: a single-line batch requesting 200 of P1 (only 150
available across the two layers) is rejected with the store untouched. -/
theorem c4_all_or_nothing_witness :
    add_outbound (fun _ => true) (fun _ => true) 0
      [⟨"P1", "甲", "W1", 200, 20⟩] store0 = (store0, false) :=
  c4_all_or_nothing _ _ 0 _ store0 _ (List.mem_cons_self _ _)
    (Or.inr (by with_unfolding_all decide))

/-! ### Merge/create lemmas for `update_inbound` -/

theorem update_inbound_merge_first (now : Nat) (d : InboundData) :
    ∀ (pre : List StockLayer) (l : StockLayer) (post : List StockLayer),
      (∀ x ∈ pre, inMatch d.productId d.warehouse d.unitCost x = false) →
      inMatch d.productId d.warehouse d.unitCost l = true →
      update_inbound now d (pre ++ l :: post) =
        pre ++ mergeInbound now d l :: post := by
  intro pre
  induction pre with
  | nil => intro l post _ hm; simp [update_inbound, hm]
  | cons x xs ih =>
    intro l post hpre hm
    have hx := hpre x (List.mem_cons_self _ _)
    simp only [List.cons_append, update_inbound, hx, Bool.false_eq_true,
      if_false, List.append_eq]
    rw [ih l post (fun a ha => hpre a (List.mem_cons_of_mem _ ha)) hm]

theorem update_inbound_append (now : Nat) (d : InboundData) :
    ∀ (layers : List StockLayer),
      (∀ x ∈ layers, inMatch d.productId d.warehouse d.unitCost x = false) →
      update_inbound now d layers = layers ++ [freshLayer now d] := by
  intro layers
  induction layers with
  | nil => intro _; simp [update_inbound]
  | cons x xs ih =>
    intro h
    have hx := h x (List.mem_cons_self _ _)
    simp only [update_inbound, hx, Bool.false_eq_true, if_false,
      List.cons_append, List.append_eq]
    rw [ih (fun a ha => h a (List.mem_cons_of_mem _ ha))]

/-- C6: an inbound event merges into the first layer row matching
(商品ID, 仓库名, 入库单价 within tolerance) — increasing 累计入库数量 and
当前库存 by the quantity and 入库总价 by quantity × 入库单价, leaving
累计出库数量 and 出库总价 unchanged — and otherwise appends a fresh layer
with 累计出库数量 = 0, 当前库存 = quantity, 出库总价 = 0; consequently two
inbound events with the same (product, warehouse, unit cost) yield a single
layer whose 当前库存 is the sum of both quantities. -/
theorem c6_inbound_merge_create :
    (∀ (now : Nat) (d : InboundData) (pre : List StockLayer) (l : StockLayer)
        (post : List StockLayer),
        (∀ x ∈ pre, inMatch d.productId d.warehouse d.unitCost x = false) →
        inMatch d.productId d.warehouse d.unitCost l = true →
        update_inbound now d (pre ++ l :: post) =
          pre ++ mergeInbound now d l :: post)
  ∧ (∀ (now : Nat) (d : InboundData) (layers : List StockLayer),
        (∀ x ∈ layers, inMatch d.productId d.warehouse d.unitCost x = false) →
        update_inbound now d layers = layers ++ [freshLayer now d])
  ∧ (∀ (now₁ now₂ : Nat) (d₁ d₂ : InboundData) (layers : List StockLayer),
        d₁.productId = d₂.productId → d₁.warehouse = d₂.warehouse →
        d₁.unitCost = d₂.unitCost →
        (∀ x ∈ layers, inMatch d₁.productId d₁.warehouse d₁.unitCost x = false) →
        update_inbound now₂ d₂ (update_inbound now₁ d₁ layers) =
          layers ++ [mergeInbound now₂ d₂ (freshLayer now₁ d₁)] ∧
        (mergeInbound now₂ d₂ (freshLayer now₁ d₁)).currentQty =
          d₁.quantity + d₂.quantity) := by
  refine ⟨update_inbound_merge_first, update_inbound_append, ?_⟩
  intro now₁ now₂ d₁ d₂ layers hpid hwh hcost hnone
  constructor
  · rw [update_inbound_append now₁ d₁ layers hnone]
    have hfresh : inMatch d₂.productId d₂.warehouse d₂.unitCost
        (freshLayer now₁ d₁) = true := by
      rw [← hpid, ← hwh, ← hcost]
      simp [inMatch, freshLayer]
    have hnone₂ : ∀ x ∈ layers,
        inMatch d₂.productId d₂.warehouse d₂.unitCost x = false := by
      intro x hx
      rw [← hpid, ← hwh, ← hcost]
      exact hnone x hx
    exact update_inbound_merge_first now₂ d₂ layers (freshLayer now₁ d₁) []
      hnone₂ hfresh
  · simp [mergeInbound, freshLayer]

/-- Test fixture: an inbound event for a product with no existing layer. -/
def dIn : InboundData := ⟨"P2", "乙", "W1", 4, 7⟩

/-- Witness for C6: two identical inbound events on a store holding only the
non-matching `layerA` produce one appended layer with 当前库存 = 4 + 4. -/
theorem c6_inbound_merge_create_witness :
    update_inbound 1 dIn (update_inbound 0 dIn [layerA]) =
      [layerA] ++ [mergeInbound 1 dIn (freshLayer 0 dIn)] ∧
    (mergeInbound 1 dIn (freshLayer 0 dIn)).currentQty = 4 + 4 :=
  c6_inbound_merge_create.2.2 0 1 dIn dIn [layerA] rfl rfl rfl
    (by with_unfolding_all decide)

/-- C7: the inbound lookup matches a layer row exactly when 商品ID and 仓库名
are equal and the stored 入库单价 differs from the event's by strictly less
than 0.01; costs 12 and 12.001 therefore land in the same layer while 12 and
12.5 land in different layers. -/
theorem c7_epsilon_matching :
    (∀ (pid wh : String) (cost : ℚ) (l : StockLayer),
        inMatch pid wh cost l = true ↔
          (l.productId = pid ∧ l.warehouse = wh ∧ |l.unitCost - cost| < 1/100))
  ∧ (update_inbound 0 ⟨"P1", "甲", "W1", 5, 12001/1000⟩ [layerB]).length = 1
  ∧ (update_inbound 0 ⟨"P1", "甲", "W1", 5, 25/2⟩ [layerB]).length = 2 := by
  refine ⟨?_, by with_unfolding_all decide, by with_unfolding_all decide⟩
  intro pid wh cost l
  constructor
  · intro h
    simp only [inMatch, Bool.and_eq_true, beq_iff_eq, decide_eq_true_eq] at h
    exact ⟨h.1.1.symm, h.1.2.symm, h.2⟩
  · rintro ⟨h1, h2, h3⟩
    simp [inMatch, h1, h2]
    simpa using h3

/-- Witness for C7: the tolerance test accepts the cost-12 layer for an event
priced 12.001. -/
theorem c7_epsilon_matching_witness :
    inMatch "P1" "W1" (12001/1000) layerB = true :=
  (c7_epsilon_matching.1 "P1" "W1" (12001/1000) layerB).mpr
    ⟨rfl, rfl, by with_unfolding_all decide⟩

/-! ### Lemmas about the `add_inbound` loop -/

theorem add_inbound_go_append (ok : Nat → Bool) (now : Nat) :
    ∀ (as bs : List InboundData) (st : InStore) (cnt tick : Nat),
      add_inbound_go ok now (as ++ bs) st cnt tick =
        (if (add_inbound_go ok now as st cnt tick).2.2.2
         then add_inbound_go ok now bs (add_inbound_go ok now as st cnt tick).1
                (add_inbound_go ok now as st cnt tick).2.1
                (add_inbound_go ok now as st cnt tick).2.2.1
         else add_inbound_go ok now as st cnt tick) := by
  intro as
  induction as with
  | nil => intro bs st cnt tick; simp [add_inbound_go]
  | cons d ds ih =>
    intro bs st cnt tick
    by_cases h1 : d.quantity ≤ 0 ∨ d.unitCost ≤ 0
    · simp only [List.cons_append, add_inbound_go, if_pos h1]
      exact ih bs st cnt tick
    · cases h2 : ok tick with
      | false => simp [add_inbound_go, h1, h2]
      | true =>
        cases h3 : ok (tick + 1) with
        | false => simp [add_inbound_go, h1, h2, h3]
        | true =>
          simp only [List.cons_append, add_inbound_go, if_neg h1, h2, h3,
            if_true]
          exact ih bs _ _ _

theorem add_inbound_go_progress (ok : Nat → Bool) (now : Nat) :
    ∀ (ds : List InboundData) (st : InStore) (cnt tick : Nat),
      (∀ d ∈ ds, 0 < d.quantity ∧ 0 < d.unitCost) →
      (∀ i, i < 2 * ds.length → ok (tick + i) = true) →
      (add_inbound_go ok now ds st cnt tick).2.1 = cnt + ds.length ∧
      (add_inbound_go ok now ds st cnt tick).2.2.1 = tick + 2 * ds.length ∧
      (add_inbound_go ok now ds st cnt tick).2.2.2 = true := by
  intro ds
  induction ds with
  | nil => intro st cnt tick _ _; simp [add_inbound_go]
  | cons d ds ih =>
    intro st cnt tick hv hok
    have hd := hv d (List.mem_cons_self _ _)
    have h1 : ¬ (d.quantity ≤ 0 ∨ d.unitCost ≤ 0) :=
      not_or.mpr ⟨not_le.mpr hd.1, not_le.mpr hd.2⟩
    have h2 : ok tick = true := by
      have := hok 0 (by simp only [List.length_cons]; omega)
      simpa using this
    have h3 : ok (tick + 1) = true :=
      hok 1 (by simp only [List.length_cons]; omega)
    simp only [add_inbound_go, if_neg h1, h2, h3, if_true]
    obtain ⟨e1, e2, e3⟩ := ih
      ⟨st.inLedger ++ [⟨d.productId, d.productName, d.warehouse, d.quantity,
          d.unitCost, d.quantity * d.unitCost⟩], update_inbound now d st.layers⟩
      (cnt + 1) (tick + 2)
      (fun a ha => hv a (List.mem_cons_of_mem _ ha))
      (fun i hi => by
        have := hok (i + 2) (by simp only [List.length_cons] at hi ⊢; omega)
        have he : tick + (i + 2) = tick + 2 + i := by omega
        rwa [he] at this)
    refine ⟨?_, ?_, ?_⟩
    · exact e1.trans (by simp only [List.length_cons]; omega)
    · exact e2.trans (by simp only [List.length_cons]; omega)
    · exact e3

theorem add_inbound_go_cnt_le (ok : Nat → Bool) (now : Nat) :
    ∀ (ds : List InboundData) (st : InStore) (cnt tick : Nat),
      (add_inbound_go ok now ds st cnt tick).2.1 ≤ cnt + ds.length := by
  intro ds
  induction ds with
  | nil => intro st cnt tick; simp [add_inbound_go]
  | cons d ds ih =>
    intro st cnt tick
    by_cases h1 : d.quantity ≤ 0 ∨ d.unitCost ≤ 0
    · simp only [add_inbound_go, if_pos h1]
      calc (add_inbound_go ok now ds st cnt tick).2.1
          ≤ cnt + ds.length := ih st cnt tick
        _ ≤ cnt + (d :: ds).length := by simp only [List.length_cons]; omega
    · cases h2 : ok tick with
      | false => simp [add_inbound_go, h1, h2]
      | true =>
        cases h3 : ok (tick + 1) with
        | false => simp [add_inbound_go, h1, h2, h3]
        | true =>
          simp only [add_inbound_go, if_neg h1, h2, h3, if_true]
          calc (add_inbound_go ok now ds _ (cnt + 1) (tick + 2)).2.1
              ≤ cnt + 1 + ds.length := ih _ (cnt + 1) (tick + 2)
            _ ≤ cnt + (d :: ds).length := by simp only [List.length_cons]; omega

theorem add_inbound_go_cnt_lt_of_invalid (ok : Nat → Bool) (now : Nat) :
    ∀ (ds : List InboundData) (st : InStore) (cnt tick : Nat) (d : InboundData),
      d ∈ ds → (d.quantity ≤ 0 ∨ d.unitCost ≤ 0) →
      (add_inbound_go ok now ds st cnt tick).2.1 < cnt + ds.length := by
  intro ds
  induction ds with
  | nil => intro st cnt tick d hd _; exact absurd hd (List.not_mem_nil d)
  | cons x ds ih =>
    intro st cnt tick d hd hbad
    rcases List.mem_cons.mp hd with hd | hd
    · subst hd
      simp only [add_inbound_go, if_pos hbad]
      calc (add_inbound_go ok now ds st cnt tick).2.1
          ≤ cnt + ds.length := add_inbound_go_cnt_le ok now ds st cnt tick
        _ < cnt + (d :: ds).length := by simp only [List.length_cons]; omega
    · by_cases h1 : x.quantity ≤ 0 ∨ x.unitCost ≤ 0
      · simp only [add_inbound_go, if_pos h1]
        calc (add_inbound_go ok now ds st cnt tick).2.1
            ≤ cnt + ds.length := add_inbound_go_cnt_le ok now ds st cnt tick
          _ < cnt + (x :: ds).length := by simp only [List.length_cons]; omega
      · cases h2 : ok tick with
        | false => simp [add_inbound_go, h1, h2]
        | true =>
          cases h3 : ok (tick + 1) with
          | false => simp [add_inbound_go, h1, h2, h3]
          | true =>
            simp only [add_inbound_go, if_neg h1, h2, h3, if_true]
            calc (add_inbound_go ok now ds _ (cnt + 1) (tick + 2)).2.1
                < cnt + 1 + ds.length := ih _ (cnt + 1) (tick + 2) d hd hbad
              _ ≤ cnt + (x :: ds).length := by simp only [List.length_cons]; omega

theorem add_inbound_go_ok_of_completed (ok : Nat → Bool) (now : Nat) :
    ∀ (ds : List InboundData) (st : InStore) (cnt tick : Nat),
      (∀ d ∈ ds, 0 < d.quantity ∧ 0 < d.unitCost) →
      (add_inbound_go ok now ds st cnt tick).2.2.2 = true →
      ∀ i, i < 2 * ds.length → ok (tick + i) = true := by
  intro ds
  induction ds with
  | nil => intro st cnt tick _ _ i hi; simp at hi
  | cons d ds ih =>
    intro st cnt tick hv hc i hi
    have hd := hv d (List.mem_cons_self _ _)
    have h1 : ¬ (d.quantity ≤ 0 ∨ d.unitCost ≤ 0) :=
      not_or.mpr ⟨not_le.mpr hd.1, not_le.mpr hd.2⟩
    cases h2 : ok tick with
    | false => rw [add_inbound_go, if_neg h1] at hc; simp [h2] at hc
    | true =>
      cases h3 : ok (tick + 1) with
      | false => rw [add_inbound_go, if_neg h1] at hc; simp [h2, h3] at hc
      | true =>
        rw [add_inbound_go, if_neg h1] at hc
        simp only [h2, h3, if_true] at hc
        rcases Nat.lt_or_ge i 2 with hlt | hge
        · interval_cases i
          · simpa using h2
          · exact h3
        · have hih := ih _ (cnt + 1) (tick + 2)
            (fun a ha => hv a (List.mem_cons_of_mem _ ha)) hc (i - 2)
            (by simp only [List.length_cons] at hi ⊢; omega)
          have he : tick + 2 + (i - 2) = tick + i := by omega
          rwa [he] at hih

/-- C8: `add_inbound` returns `true` exactly when every line of the batch is
valid (quantity and price positive) and every ledger write and summary merge
succeeded (`success_count == len(data_list)`); when a line fails after earlier
lines succeeded, the call returns `false` while the earlier lines' ledger rows
and layer updates stay committed — no rollback happens. -/
theorem c8_batch_inbound :
    (∀ (ok : Nat → Bool) (now : Nat) (ds : List InboundData) (st : InStore),
        (add_inbound ok now ds st).2 = true ↔
          ((∀ d ∈ ds, 0 < d.quantity ∧ 0 < d.unitCost) ∧
           ∀ t, t < 2 * ds.length → ok t = true))
  ∧ (∀ (ok : Nat → Bool) (now : Nat) (pre : List InboundData)
        (bad : InboundData) (post : List InboundData) (st : InStore),
        (∀ d ∈ pre, 0 < d.quantity ∧ 0 < d.unitCost) →
        (∀ t, t < 2 * pre.length → ok t = true) →
        0 < bad.quantity → 0 < bad.unitCost →
        ok (2 * pre.length) = false →
        (add_inbound ok now (pre ++ bad :: post) st).1 =
          (add_inbound ok now pre st).1 ∧
        (add_inbound ok now (pre ++ bad :: post) st).2 = false) := by
  constructor
  · intro ok now ds st
    constructor
    · intro h
      simp only [add_inbound, Bool.and_eq_true, beq_iff_eq] at h
      obtain ⟨hc, hcnt⟩ := h
      have hvalid : ∀ d ∈ ds, 0 < d.quantity ∧ 0 < d.unitCost := by
        intro d hd
        by_contra hbad
        have hbad : d.quantity ≤ 0 ∨ d.unitCost ≤ 0 := by
          rcases not_and_or.mp hbad with hb | hb
          · exact Or.inl (not_lt.mp hb)
          · exact Or.inr (not_lt.mp hb)
        have := add_inbound_go_cnt_lt_of_invalid ok now ds st 0 0 d hd hbad
        omega
      refine ⟨hvalid, fun t ht => ?_⟩
      have := add_inbound_go_ok_of_completed ok now ds st 0 0 hvalid hc t ht
      simpa using this
    · rintro ⟨hvalid, hok⟩
      have := add_inbound_go_progress ok now ds st 0 0 hvalid
        (fun i hi => by simpa using hok i hi)
      simp [add_inbound, this.1, this.2.2]
  · intro ok now pre bad post st hvalid hok hq hp hfail
    have hpre := add_inbound_go_progress ok now pre st 0 0 hvalid
      (fun i hi => by simpa using hok i hi)
    have h1 : ¬ (bad.quantity ≤ 0 ∨ bad.unitCost ≤ 0) :=
      not_or.mpr ⟨not_le.mpr hq, not_le.mpr hp⟩
    have hstep : add_inbound_go ok now (bad :: post)
        (add_inbound_go ok now pre st 0 0).1
        (add_inbound_go ok now pre st 0 0).2.1
        (add_inbound_go ok now pre st 0 0).2.2.1 =
        ((add_inbound_go ok now pre st 0 0).1,
          (add_inbound_go ok now pre st 0 0).2.1,
          (add_inbound_go ok now pre st 0 0).2.2.1 + 1, false) := by
      rw [add_inbound_go, if_neg h1]
      have : ok (add_inbound_go ok now pre st 0 0).2.2.1 = false := by
        rw [hpre.2.1]
        simpa using hfail
      simp [this]
    have hfull : add_inbound_go ok now (pre ++ bad :: post) st 0 0 =
        ((add_inbound_go ok now pre st 0 0).1,
          (add_inbound_go ok now pre st 0 0).2.1,
          (add_inbound_go ok now pre st 0 0).2.2.1 + 1, false) := by
      rw [add_inbound_go_append, if_pos (by rw [hpre.2.2]), hstep]
    constructor
    · simp [add_inbound, hfull]
    · simp [add_inbound, hfull]

/-- Witness for C8: a valid line followed by a line whose ledger write fails
(oracle false from tick 2 on) leaves the first line committed and reports
failure; and a fully successful batch reports success. -/
theorem c8_batch_inbound_witness :
    ((add_inbound (fun t => decide (t < 2)) 0 [dIn, dIn] ⟨[], []⟩).1 =
      (add_inbound (fun t => decide (t < 2)) 0 [dIn] ⟨[], []⟩).1 ∧
     (add_inbound (fun t => decide (t < 2)) 0 [dIn, dIn] ⟨[], []⟩).2 = false) ∧
    (add_inbound (fun _ => true) 0 [dIn] ⟨[], []⟩).2 = true :=
  ⟨c8_batch_inbound.2 (fun t => decide (t < 2)) 0 [dIn] dIn [] ⟨[], []⟩
      (by with_unfolding_all decide)
      (by intro t ht; simp only [List.length_cons, List.length_nil] at ht; simp; omega)
      (by with_unfolding_all decide) (by with_unfolding_all decide)
      (by with_unfolding_all decide),
   (c8_batch_inbound.1 (fun _ => true) 0 [dIn] ⟨[], []⟩).mpr
      ⟨by with_unfolding_all decide, fun t _ => rfl⟩⟩

/-- C9: a line with 入库数量 ≤ 0 or 入库单价 ≤ 0 is skipped and the
subsequent lines are processed exactly as if the invalid line were absent
(so they are still written and merged), but the batch as a whole reports
`false` because the skipped line never counts toward `success_count`. -/
theorem c9_invalid_line_skipped (ok : Nat → Bool) (now : Nat)
    (pre : List InboundData) (bad : InboundData) (post : List InboundData)
    (st : InStore) (hbad : bad.quantity ≤ 0 ∨ bad.unitCost ≤ 0) :
    (add_inbound ok now (pre ++ bad :: post) st).1 =
      (add_inbound ok now (pre ++ post) st).1 ∧
    (add_inbound ok now (pre ++ bad :: post) st).2 = false := by
  have hgo : ∀ (st' : InStore) (cnt tick : Nat),
      add_inbound_go ok now (bad :: post) st' cnt tick =
        add_inbound_go ok now post st' cnt tick := by
    intro st' cnt tick
    rw [add_inbound_go, if_pos hbad]
  have key : add_inbound_go ok now (pre ++ bad :: post) st 0 0 =
      add_inbound_go ok now (pre ++ post) st 0 0 := by
    rw [add_inbound_go_append, add_inbound_go_append, hgo]
  constructor
  · simp [add_inbound, key]
  · have hle := add_inbound_go_cnt_le ok now (pre ++ post) st 0 0
    simp only [List.length_append] at hle
    simp [add_inbound, key]
    intro _
    omega

/-- Witness for C9: an invalid first line (quantity 0) followed by a valid
line: the store ends as if only the valid line were processed, and the batch
reports failure. -/
theorem c9_invalid_line_skipped_witness :
    (add_inbound (fun _ => true) 0 [⟨"P2", "乙", "W1", 0, 7⟩, dIn] ⟨[], []⟩).1 =
      (add_inbound (fun _ => true) 0 [dIn] ⟨[], []⟩).1 ∧
    (add_inbound (fun _ => true) 0 [⟨"P2", "乙", "W1", 0, 7⟩, dIn] ⟨[], []⟩).2 =
      false :=
  c9_invalid_line_skipped (fun _ => true) 0 [] ⟨"P2", "乙", "W1", 0, 7⟩ [dIn]
    ⟨[], []⟩ (by with_unfolding_all decide)

/-! ### Shape of the commit phase: the ledger grows by freshly-numbered rows,
and `successful_records` tracks exactly those rows whose layer update also
succeeded — except possibly the last row, written just before a failing
update. -/

/-- The outbound ledger row written by one commit step (shorthand for the
record literal appearing in `commitSteps`). -/
def stepRecord (line : OutboundData) (rem : ℚ) (snap : StockLayer) :
    OutboundRecord :=
  ⟨line.productId, line.productName, line.warehouse, min rem snap.currentQty,
   line.salePrice, snap.unitCost, min rem snap.currentQty * line.salePrice⟩

theorem commitSteps_shape (ok : Nat → Bool) (now : Nat) (line : OutboundData) :
    ∀ (pending : List StockLayer) (rem : ℚ) (st : OutStore) (tick : Nat)
      (created : List Nat),
      st.nextId ≤ (commitSteps ok now line pending rem st tick created).1.nextId ∧
      ∃ extra,
        (commitSteps ok now line pending rem st tick created).1.ledger =
          st.ledger ++ extra ∧
        (∀ e ∈ extra, st.nextId ≤ e.1 ∧
          e.1 < (commitSteps ok now line pending rem st tick created).1.nextId) ∧
        (extra.map Prod.fst).Pairwise (· < ·) ∧
        ((commitSteps ok now line pending rem st tick created).2.2.1 =
            created ++ extra.map Prod.fst ∨
          ((commitSteps ok now line pending rem st tick created).2.2.2 = none ∧
            ∃ es e, extra = es ++ [e] ∧
              (commitSteps ok now line pending rem st tick created).2.2.1 =
                created ++ es.map Prod.fst)) := by
  intro pending
  induction pending with
  | nil =>
    intro rem st tick created
    refine ⟨le_refl _, [], by simp [commitSteps], by simp, by simp, ?_⟩
    simp [commitSteps]
  | cons snap snaps ih =>
    intro rem st tick created
    by_cases hrem : rem ≤ 0
    · have he : commitSteps ok now line (snap :: snaps) rem st tick created =
          (st, tick, created, some rem) := by
        rw [commitSteps, if_pos hrem]
      refine ⟨by rw [he], [], by rw [he]; simp, by simp,
        by simp, ?_⟩
      rw [he]; simp
    · by_cases hcur : snap.currentQty ≤ 0
      · have he : commitSteps ok now line (snap :: snaps) rem st tick created =
            commitSteps ok now line snaps rem st tick created := by
          rw [commitSteps, if_neg hrem, if_pos hcur]
        rw [he]
        exact ih rem st tick created
      · cases h2 : ok tick with
        | false =>
          have he : commitSteps ok now line (snap :: snaps) rem st tick created =
              (st, tick + 1, created, none) := by
            rw [commitSteps, if_neg hrem, if_neg hcur]
            simp [h2]
          refine ⟨by rw [he], [], by rw [he]; simp, by simp,
            by simp, ?_⟩
          rw [he]; simp
        | true =>
          cases h3 : ok (tick + 1) with
          | false =>
            have he : commitSteps ok now line (snap :: snaps) rem st tick created =
                (⟨st.layers,
                  st.ledger ++ [(st.nextId, stepRecord line rem snap)],
                  st.nextId + 1⟩, tick + 2, created, none) := by
              rw [commitSteps, if_neg hrem, if_neg hcur]
              simp [h2, h3, stepRecord]
            refine ⟨by rw [he]; exact Nat.le_succ _,
              [(st.nextId, stepRecord line rem snap)], by rw [he], ?_,
              by simp, ?_⟩
            · intro e hee
              rcases List.mem_cons.mp hee with hee | hee
              · subst hee
                exact ⟨le_refl _, by rw [he]; exact Nat.lt_succ_self _⟩
              · exact absurd hee (List.not_mem_nil e)
            · exact Or.inr ⟨by rw [he], [], (st.nextId, stepRecord line rem snap),
                by simp, by rw [he]; simp⟩
          | true =>
            cases h4 : (update_outbound now
                ⟨line.productId, line.productName, line.warehouse,
                  min rem snap.currentQty, line.salePrice⟩ st.layers).2 with
            | false =>
              have he : commitSteps ok now line (snap :: snaps) rem st tick created =
                  (⟨(update_outbound now
                      ⟨line.productId, line.productName, line.warehouse,
                        min rem snap.currentQty, line.salePrice⟩ st.layers).1,
                    st.ledger ++ [(st.nextId, stepRecord line rem snap)],
                    st.nextId + 1⟩, tick + 2, created, none) := by
                rw [commitSteps, if_neg hrem, if_neg hcur]
                simp [h2, h3, h4, stepRecord]
              refine ⟨by rw [he]; exact Nat.le_succ _,
                [(st.nextId, stepRecord line rem snap)], by rw [he], ?_,
                by simp, ?_⟩
              · intro e hee
                rcases List.mem_cons.mp hee with hee | hee
                · subst hee
                  exact ⟨le_refl _, by rw [he]; exact Nat.lt_succ_self _⟩
                · exact absurd hee (List.not_mem_nil e)
              · exact Or.inr ⟨by rw [he], [],
                  (st.nextId, stepRecord line rem snap), by simp,
                  by rw [he]; simp⟩
            | true =>
              have he : commitSteps ok now line (snap :: snaps) rem st tick created =
                  commitSteps ok now line snaps (rem - min rem snap.currentQty)
                    ⟨(update_outbound now
                        ⟨line.productId, line.productName, line.warehouse,
                          min rem snap.currentQty, line.salePrice⟩ st.layers).1,
                      st.ledger ++ [(st.nextId, stepRecord line rem snap)],
                      st.nextId + 1⟩
                    (tick + 2) (created ++ [st.nextId]) := by
                rw [commitSteps, if_neg hrem, if_neg hcur]
                simp [h2, h3, h4, stepRecord]
              rw [he]
              obtain ⟨hn, extra₂, hledger, hbounds, hpw, hcr⟩ :=
                ih (rem - min rem snap.currentQty)
                  ⟨(update_outbound now
                      ⟨line.productId, line.productName, line.warehouse,
                        min rem snap.currentQty, line.salePrice⟩ st.layers).1,
                    st.ledger ++ [(st.nextId, stepRecord line rem snap)],
                    st.nextId + 1⟩
                  (tick + 2) (created ++ [st.nextId])
              refine ⟨le_trans (Nat.le_succ _) hn,
                (st.nextId, stepRecord line rem snap) :: extra₂, ?_, ?_, ?_, ?_⟩
              · rw [hledger]; simp
              · intro e hee
                rcases List.mem_cons.mp hee with hee | hee
                · subst hee
                  exact ⟨le_refl _, lt_of_lt_of_le (Nat.lt_succ_self _) hn⟩
                · obtain ⟨hb1, hb2⟩ := hbounds e hee
                  exact ⟨le_trans (Nat.le_succ _) hb1, hb2⟩
              · simp only [List.map_cons]
                refine List.pairwise_cons.mpr ⟨?_, hpw⟩
                intro id hid
                obtain ⟨e, hee, hide⟩ := List.mem_map.mp hid
                rw [← hide]
                exact lt_of_lt_of_le (Nat.lt_succ_self _) (hbounds e hee).1
              · rcases hcr with hcr | ⟨hnone, es, e, hes, hcr⟩
                · exact Or.inl (by rw [hcr]; simp)
                · exact Or.inr ⟨hnone,
                    (st.nextId, stepRecord line rem snap) :: es, e,
                    by rw [hes, List.cons_append], by rw [hcr]; simp⟩

theorem commitLines_shape (ok : Nat → Bool) (now : Nat) :
    ∀ (lines : List OutboundData) (st : OutStore) (tick : Nat)
      (created : List Nat),
      st.nextId ≤ (commitLines ok now lines st tick created).1.nextId ∧
      ∃ extra,
        (commitLines ok now lines st tick created).1.ledger =
          st.ledger ++ extra ∧
        (∀ e ∈ extra, st.nextId ≤ e.1 ∧
          e.1 < (commitLines ok now lines st tick created).1.nextId) ∧
        (extra.map Prod.fst).Pairwise (· < ·) ∧
        ((commitLines ok now lines st tick created).2.2.1 =
            created ++ extra.map Prod.fst ∨
          ((commitLines ok now lines st tick created).2.2.2 = false ∧
            ∃ es e, extra = es ++ [e] ∧
              (commitLines ok now lines st tick created).2.2.1 =
                created ++ es.map Prod.fst)) := by
  intro lines
  induction lines with
  | nil =>
    intro st tick created
    refine ⟨le_refl _, [], by simp [commitLines], by simp, by simp, ?_⟩
    simp [commitLines]
  | cons line rest ih =>
    intro st tick created
    obtain ⟨hn₁, extra₁, hled₁, hbnd₁, hpw₁, hcr₁⟩ :=
      commitSteps_shape ok now line
        (sortByDesc StockLayer.unitCost
          (get_stock_summary st.layers line.productId line.warehouse))
        line.quantity st tick created
    rcases hsteps : commitSteps ok now line
        (sortByDesc StockLayer.unitCost
          (get_stock_summary st.layers line.productId line.warehouse))
        line.quantity st tick created with ⟨st', tick', created', res⟩
    rw [hsteps] at hn₁ hled₁ hbnd₁ hcr₁
    simp only at hn₁ hled₁ hbnd₁ hcr₁
    cases res with
    | none =>
      have he : commitLines ok now (line :: rest) st tick created =
          (st', tick', created', false) := by
        rw [commitLines, hsteps]
      rw [he]
      refine ⟨hn₁, extra₁, hled₁, hbnd₁, hpw₁, ?_⟩
      rcases hcr₁ with hcr | ⟨_, es, e, hes, hcr⟩
      · exact Or.inl hcr
      · exact Or.inr ⟨rfl, es, e, hes, hcr⟩
    | some rem =>
      have hcr₁' : created' = created ++ extra₁.map Prod.fst := by
        rcases hcr₁ with hcr | ⟨hnone, _⟩
        · exact hcr
        · exact absurd hnone (by simp)
      by_cases hrem : 0 < rem
      · have he : commitLines ok now (line :: rest) st tick created =
            (st', tick', created', false) := by
          rw [commitLines, hsteps]
          simp [hrem]
        rw [he]
        exact ⟨hn₁, extra₁, hled₁, hbnd₁, hpw₁, Or.inl hcr₁'⟩
      · have he : commitLines ok now (line :: rest) st tick created =
            commitLines ok now rest st' tick' created' := by
          rw [commitLines, hsteps]
          simp [hrem]
        rw [he]
        obtain ⟨hn₂, extra₂, hled₂, hbnd₂, hpw₂, hcr₂⟩ := ih st' tick' created'
        refine ⟨le_trans hn₁ hn₂, extra₁ ++ extra₂, ?_, ?_, ?_, ?_⟩
        · rw [hled₂, hled₁, List.append_assoc]
        · intro e hee
          rcases List.mem_append.mp hee with hee | hee
          · obtain ⟨hb1, hb2⟩ := hbnd₁ e hee
            exact ⟨hb1, lt_of_lt_of_le hb2 hn₂⟩
          · obtain ⟨hb1, hb2⟩ := hbnd₂ e hee
            exact ⟨le_trans hn₁ hb1, hb2⟩
        · rw [List.map_append]
          refine List.pairwise_append.mpr ⟨hpw₁, hpw₂, ?_⟩
          intro a ha b hb
          obtain ⟨ea, hea, hae⟩ := List.mem_map.mp ha
          obtain ⟨eb, heb, hbe⟩ := List.mem_map.mp hb
          rw [← hae, ← hbe]
          exact lt_of_lt_of_le (hbnd₁ ea hea).2 (hbnd₂ eb heb).1
        · rcases hcr₂ with hcr | ⟨hfail, es₂, e₂, hes₂, hcr⟩
          · refine Or.inl ?_
            rw [hcr, hcr₁', List.map_append, List.append_assoc]
          · refine Or.inr ⟨hfail, extra₁ ++ es₂, e₂, ?_, ?_⟩
            · rw [hes₂, List.append_assoc]
            · rw [hcr, hcr₁', List.map_append, List.append_assoc]

theorem rollback_records_all_true :
    ∀ (created : List Nat) (t : Nat) (ledger : List (Nat × OutboundRecord)),
      rollback_records (fun _ => true) t created ledger =
        ledger.filter (fun e => decide (e.1 ∉ created)) := by
  intro created
  induction created with
  | nil =>
    intro t ledger
    simp [rollback_records]
  | cons rid rest ih =>
    intro t ledger
    rw [rollback_records, if_pos rfl, ih, List.filter_filter]
    apply List.filter_congr
    intro e _
    by_cases h : e.1 = rid
    · simp [h]
    · simp [h]

/-- C5 (amended per the counterexample): on a commit-phase failure (the call
returning `false`), all deletions succeeding, every outbound ledger record
recorded in `successful_records` — those whose layer update also succeeded —
is deleted by its record id, so the ledger keeps at most one extra row: the
one written immediately before a failing layer update, which is not deleted;
and the rollback never touches the layer rows — the final layers are exactly
what the commit phase left behind, with no inverse layer update applied. -/
theorem c5_rollback :
    (∀ (ok : Nat → Bool) (now : Nat) (lines : List OutboundData) (st : OutStore),
        (∀ e ∈ st.ledger, e.1 < st.nextId) →
        (add_outbound ok (fun _ => true) now lines st).2 = false →
        (add_outbound ok (fun _ => true) now lines st).1.ledger = st.ledger ∨
          ∃ e, (add_outbound ok (fun _ => true) now lines st).1.ledger =
            st.ledger ++ [e])
  ∧ (∀ (ok delOk : Nat → Bool) (now : Nat) (lines : List OutboundData)
        (st : OutStore),
        lines.all (validLine st.layers) = true →
        (add_outbound ok delOk now lines st).1.layers =
          (commitLines ok now lines st 0 []).1.layers) := by
  constructor
  · intro ok now lines st hwf hfalse
    by_cases hval : lines.all (validLine st.layers) = true
    · obtain ⟨hn, extra, hled, hbnd, hpw, hcr⟩ :=
        commitLines_shape ok now lines st 0 []
      rcases hcl : commitLines ok now lines st 0 [] with ⟨st', tick', created', done⟩
      rw [hcl] at hn hled hbnd hcr
      simp only at hn hled hbnd hcr
      cases done with
      | true =>
        rw [add_outbound, if_pos hval, hcl] at hfalse
        simp at hfalse
      | false =>
        have hres : add_outbound ok (fun _ => true) now lines st =
            (⟨st'.layers,
              rollback_records (fun _ => true) 0 created' st'.ledger,
              st'.nextId⟩, false) := by
          rw [add_outbound, if_pos hval, hcl]
        have hstled : ∀ e ∈ st.ledger, decide (e.1 ∉ created') = true := by
          intro e he
          refine decide_eq_true ?_
          intro hmem
          have hsub : e.1 ∈ extra.map Prod.fst := by
            rcases hcr with hcr | ⟨_, es, e', hes, hcr⟩
            · rw [hcr] at hmem
              simpa using hmem
            · rw [hcr] at hmem
              simp only [List.nil_append] at hmem
              rw [hes, List.map_append]
              exact List.mem_append_left _ hmem
          obtain ⟨x, hx, hxe⟩ := List.mem_map.mp hsub
          have h1 := (hbnd x hx).1
          have h2 := hwf e he
          omega
        rcases hcr with hcr | ⟨_, es, e, hes, hcr⟩
        · refine Or.inl ?_
          rw [hres]
          simp only
          rw [rollback_records_all_true, hled, List.filter_append,
            List.filter_eq_self.mpr hstled,
            List.filter_eq_nil_iff.mpr ?_, List.append_nil]
          intro x hx
          simp only [decide_eq_true_eq, not_not]
          rw [hcr, List.nil_append]
          exact List.mem_map_of_mem Prod.fst hx
        · refine Or.inr ⟨e, ?_⟩
          rw [hres]
          simp only
          rw [rollback_records_all_true, hled, List.filter_append,
            List.filter_eq_self.mpr hstled, hes, List.filter_append]
          have hes_nil : es.filter (fun x => decide (x.1 ∉ created')) = [] := by
            refine List.filter_eq_nil_iff.mpr ?_
            intro x hx
            simp only [decide_eq_true_eq, not_not]
            rw [hcr, List.nil_append]
            exact List.mem_map_of_mem Prod.fst hx
          have he_keep : [e].filter (fun x => decide (x.1 ∉ created')) = [e] := by
            refine List.filter_eq_self.mpr ?_
            intro x hx
            rcases List.mem_cons.mp hx with hx | hx
            · subst hx
              refine decide_eq_true ?_
              intro hmem
              rw [hcr, List.nil_append] at hmem
              have hpw' : (es.map Prod.fst ++ [x.1]).Pairwise (· < ·) := by
                have hmap : List.map Prod.fst (es ++ [x]) =
                    es.map Prod.fst ++ [x.1] := by simp
                rw [← hmap, ← hes]
                exact hpw
              obtain ⟨-, -, hcross⟩ := List.pairwise_append.mp hpw'
              exact lt_irrefl x.1 (hcross x.1 hmem x.1 (List.mem_cons_self _ _))
            · exact absurd hx (List.not_mem_nil x)
          rw [hes_nil, he_keep, List.nil_append]
    · have hres : add_outbound ok (fun _ => true) now lines st = (st, false) := by
        rw [add_outbound, if_neg hval]
      rw [hres]
      exact Or.inl rfl
  · intro ok delOk now lines st hval
    rcases hcl : commitLines ok now lines st 0 [] with ⟨st', tick', created', done⟩
    cases done with
    | true => rw [add_outbound, if_pos hval, hcl]
    | false => rw [add_outbound, if_pos hval, hcl]

/-- Test fixture: a success oracle on which only the very first store write
succeeds — the first ledger write goes through, then the layer update fails. -/
def okFirstOnly : Nat → Bool := fun t => decide (t = 0)

/-- Test fixture: an outbound line for 30 units of P1 at sale price 20. -/
def line30 : OutboundData := ⟨"P1", "甲", "W1", 30, 20⟩

set_option maxRecDepth 2000 in
/-- C5 counterexample to the claim as stated: when the layer update following
the first ledger write fails, the call returns `false` but the just-created
outbound ledger record is *not* deleted (it was never recorded in
`successful_records`), so the ledger differs from its initial state. -/
theorem c5_rollback_counterexample :
    (add_outbound okFirstOnly (fun _ => true) 0 [line30] store0).2 = false ∧
    (add_outbound okFirstOnly (fun _ => true) 0 [line30] store0).1.ledger ≠
      store0.ledger := by
  with_unfolding_all decide

set_option maxRecDepth 2000 in
/-- Witness for C5 at the concrete orphan-record scenario. -/
theorem c5_rollback_witness :
    ((add_outbound okFirstOnly (fun _ => true) 0 [line30] store0).1.ledger =
        store0.ledger ∨
      ∃ e, (add_outbound okFirstOnly (fun _ => true) 0 [line30]
          store0).1.ledger = store0.ledger ++ [e]) ∧
    (add_outbound okFirstOnly (fun _ => true) 0 [line30] store0).1.layers =
      (commitLines okFirstOnly 0 [line30] store0 0 []).1.layers :=
  ⟨c5_rollback.1 okFirstOnly 0 [line30] store0
      (by intro e he; simp [store0] at he)
      (by with_unfolding_all decide),
   c5_rollback.2 okFirstOnly (fun _ => true) 0 [line30] store0
      (by with_unfolding_all decide)⟩

/-- C10: `_rollback_records` is best-effort — a ledger row survives the
rollback exactly when every deletion attempt aimed at its record id failed,
so one failed deletion does not stop the deletions of the remaining records
and no error escapes; and the result flag of `add_outbound` does not depend
on the deletion oracle at all, so the call still returns `false` when some
rollback deletions failed (those rows simply remain in the store). -/
theorem c10_rollback_best_effort :
    (∀ (delOk : Nat → Bool) (t : Nat) (created : List Nat)
        (ledger : List (Nat × OutboundRecord)),
        rollback_records delOk t created ledger =
          ledger.filter (fun e =>
            (withIdx t created).all (fun p => !(e.1 == p.2) || !(delOk p.1))))
  ∧ (∀ (ok delOk delOk2 : Nat → Bool) (now : Nat) (lines : List OutboundData)
        (st : OutStore),
        (add_outbound ok delOk now lines st).2 =
          (add_outbound ok delOk2 now lines st).2) := by
  constructor
  · intro delOk t created
    induction created generalizing t with
    | nil => intro ledger; simp [rollback_records, withIdx]
    | cons rid rest ih =>
      intro ledger
      rw [rollback_records]
      cases hd : delOk t with
      | true =>
        rw [if_pos rfl, ih (t + 1), List.filter_filter]
        apply List.filter_congr
        intro e _
        simp only [withIdx, List.all_cons, hd, Bool.not_true, Bool.or_false]
        exact Bool.and_comm _ _
      | false =>
        rw [if_neg (by simp), ih (t + 1)]
        apply List.filter_congr
        intro e _
        simp only [withIdx, List.all_cons, hd, Bool.not_false, Bool.or_true,
          Bool.true_and]
  · intro ok delOk delOk2 now lines st
    by_cases hval : lines.all (validLine st.layers) = true
    · rcases hcl : commitLines ok now lines st 0 [] with ⟨st', tick', created', done⟩
      cases done with
      | true =>
        rw [add_outbound, if_pos hval, hcl, add_outbound, if_pos hval, hcl]
      | false =>
        rw [add_outbound, if_pos hval, hcl, add_outbound, if_pos hval, hcl]
    · rw [add_outbound, if_neg hval, add_outbound, if_neg hval]
